import Mathlib

/-!
Verification of the cellular-automaton simulation core (`src/main.rs`).

The Rust code is shallowly embedded: `Vec<i8>` cell states become `List Int`
(the development is used at values far inside the `i8` range; theorems whose
statements range over all grids carry explicit range hypotheses keeping every
intermediate machine-integer computation inside `i8`), Rust's truncated `%`
on `i32` becomes `Int.tmod`, and every operation that can panic (vector
indexing, rule-table indexing after an `as usize` cast) returns an `Option`:
`none` models a panic.
-/

/-- The board of cell states, from `struct Board` in `main.rs`:
width `cx`, height `cy`, and a flat row-major vector `states`. -/
structure Board where
  cx : Int
  cy : Int
  states : List Int
deriving DecidableEq, Repr

/-- The rule tables, from `struct Rules` in `main.rs`. -/
structure Rules where
  birth : List Bool
  survive : List Bool
  adding_lifetime : Int
deriving DecidableEq, Repr

/-- `Board::new`: all cells dead, `states` of length `(cx*cy) as usize`. -/
def Board.new (w h : Int) : Board :=
  ⟨w, h, List.replicate (w * h).toNat 0⟩

/-- `Board::get_cell_at_position`: wraps each coordinate by adding the
dimension and taking Rust's truncated remainder (`Int.tmod`), then indexes
the flat vector.  A negative flat index (possible when the wrapped value is
still negative, i.e. the original coordinate was below `-cx`/`-cy`) casts in
Rust to a huge `usize` and panics, as does an index past the end: both are
`none` here. -/
def Board.get_cell_at_position (b : Board) (x y : Int) : Option Int :=
  let nx := Int.tmod (x + b.cx) b.cx
  let ny := Int.tmod (y + b.cy) b.cy
  let index := ny * b.cx + nx
  if 0 ≤ index then b.states[index.toNat]? else none

/-- `Board::set_cell_at_position`: unwrapped write at flat index
`y*cx + x`; out-of-range flat indices panic (`none`). -/
def Board.set_cell_at_position (b : Board) (x y : Int) (state : Int) : Option Board :=
  let index := y * b.cx + x
  if 0 ≤ index ∧ index.toNat < b.states.length then
    some { b with states := b.states.set index.toNat state }
  else none

/-- `Board::lower_cell_lifetime`: subtracts `amount` from the cell at the
unwrapped flat index `y*cx + x`, then clamps at 0 (`.max(0)`). -/
def Board.lower_cell_lifetime (b : Board) (x y : Int) (amount : Int) : Option Board :=
  let index := y * b.cx + x
  if 0 ≤ index then
    match b.states[index.toNat]? with
    | some v => some { b with states := b.states.set index.toNat (max (v - amount) 0) }
    | none => none
  else none

/-- Rust `table[n as usize]` for a rule table indexed by the (signed)
neighbor count: negative counts cast to huge `usize` values and panic. -/
def tableAt (l : List Bool) (n : Int) : Option Bool :=
  if 0 ≤ n then l[n.toNat]? else none

/-- The eight Moore-neighborhood offsets `(i-1, j-1)` visited by the two
nested `for` loops in `next_step`, in loop order, skipping `(1,1)`. -/
def neighborOffsets : List (Int × Int) :=
  [(-1,-1), (-1,0), (-1,1), (0,-1), (0,1), (1,-1), (1,0), (1,1)]

/-- The neighbor-count accumulation from `next_step`:
`neighbors += game.get_cell_at_position(px, py)` over the eight offsets. -/
def neighbors (game : Board) (x y : Int) : Option Int :=
  neighborOffsets.foldl
    (fun acc d => acc.bind fun s =>
      (game.get_cell_at_position (x + d.1) (y + d.2)).map fun v => s + v)
    (some 0)

/-- The per-cell body of `next_step`'s double loop: count neighbors, test
the source cell, then write into the new board `b` via
`set_cell_at_position` / `lower_cell_lifetime`. -/
def step_cell (game : Board) (rules : Rules) (b : Board) (x y : Int) : Option Board :=
  (neighbors game x y).bind fun n =>
  (game.get_cell_at_position x y).bind fun cur =>
  if 0 < cur then
    (tableAt rules.survive n).bind fun s =>
      if s then b.set_cell_at_position x y 1
      else b.lower_cell_lifetime x y 1
  else
    (tableAt rules.birth n).bind fun bo =>
      if bo then b.set_cell_at_position x y rules.adding_lifetime
      else b.set_cell_at_position x y 0

/-- `next_step`: builds `new_game_state = Board::new([cx, cy])`, runs the
double loop `for y in 0..cy { for x in 0..cx { ... } }`, and finally
installs the new states into the source board
(`game.states = new_game_state.states.clone()`). -/
def next_step (game : Board) (rules : Rules) : Option Board :=
  ((List.range game.cy.toNat).foldl
    (fun accY yn =>
      (List.range game.cx.toNat).foldl
        (fun accX xn => accX.bind fun b =>
          step_cell game rules b (↑xn : Int) (↑yn : Int))
        accY)
    (some (Board.new game.cx game.cy))).map
  fun ng => { game with states := ng.states }

/-- Spec-side toroidal reader ("wrapping both coordinates into `[0,width)` /
`[0,height)` via modular arithmetic"), using mathematical (Euclidean) mod. -/
def specGet (b : Board) (x y : Int) : Int :=
  (b.states[((y % b.cy) * b.cx + (x % b.cx)).toNat]?).getD 0

theorem get_in_range (b : Board) (hcx : 0 < b.cx)
    (x y : Int) (hx0 : 0 ≤ x) (hx1 : x < b.cx) (hy0 : 0 ≤ y) (hy1 : y < b.cy) :
    b.get_cell_at_position x y = b.states[(y * b.cx + x).toNat]? := by
  have hxx : Int.tmod (x + b.cx) b.cx = x := by
    rw [Int.tmod_eq_emod (by omega) (by omega),
      show x + b.cx = x + b.cx * 1 by ring, Int.add_mul_emod_self_left,
      Int.emod_eq_of_lt hx0 hx1]
  have hyy : Int.tmod (y + b.cy) b.cy = y := by
    rw [Int.tmod_eq_emod (by omega) (by omega),
      show y + b.cy = y + b.cy * 1 by ring, Int.add_mul_emod_self_left,
      Int.emod_eq_of_lt hy0 hy1]
  have hidx : 0 ≤ y * b.cx + x := by positivity
  simp only [Board.get_cell_at_position, hxx, hyy, if_pos hidx]

theorem get_eq_specGet (b : Board) (hcx : 0 < b.cx) (hcy : 0 < b.cy)
    (hlen : b.states.length = (b.cx * b.cy).toNat)
    (x y : Int) (hx : -b.cx ≤ x) (hy : -b.cy ≤ y) :
    b.get_cell_at_position x y = some (specGet b x y) := by
  have hxx : Int.tmod (x + b.cx) b.cx = x % b.cx := by
    rw [Int.tmod_eq_emod (by omega) (by omega),
      show x + b.cx = x + b.cx * 1 by ring, Int.add_mul_emod_self_left]
  have hyy : Int.tmod (y + b.cy) b.cy = y % b.cy := by
    rw [Int.tmod_eq_emod (by omega) (by omega),
      show y + b.cy = y + b.cy * 1 by ring, Int.add_mul_emod_self_left]
  have hx0 : 0 ≤ x % b.cx := Int.emod_nonneg x (by omega)
  have hx1 : x % b.cx < b.cx := Int.emod_lt_of_pos x hcx
  have hy0 : 0 ≤ y % b.cy := Int.emod_nonneg y (by omega)
  have hy1 : y % b.cy < b.cy := Int.emod_lt_of_pos y hcy
  have hidx0 : 0 ≤ (y % b.cy) * b.cx + (x % b.cx) := by positivity
  have hidx1 : (y % b.cy) * b.cx + (x % b.cx) < b.cx * b.cy := by nlinarith
  have hlt : ((y % b.cy) * b.cx + (x % b.cx)).toNat < b.states.length := by omega
  simp only [Board.get_cell_at_position, hxx, hyy, if_pos hidx0, specGet,
    List.getElem?_eq_getElem hlt, Option.getD_some]

theorem neighbors_eq_sum (b : Board) (hcx : 0 < b.cx) (hcy : 0 < b.cy)
    (hlen : b.states.length = (b.cx * b.cy).toNat)
    (x y : Int) (hx0 : 0 ≤ x) (hx1 : x < b.cx) (hy0 : 0 ≤ y) (hy1 : y < b.cy) :
    neighbors b x y =
      some ((neighborOffsets.map fun d => specGet b (x + d.1) (y + d.2)).sum) := by
  have hp : ∀ d ∈ neighborOffsets,
      b.get_cell_at_position (x + d.1) (y + d.2) = some (specGet b (x + d.1) (y + d.2)) := by
    intro d hd
    apply get_eq_specGet b hcx hcy hlen
    · simp only [neighborOffsets, List.mem_cons, List.not_mem_nil, or_false] at hd
      rcases hd with h | h | h | h | h | h | h | h <;> subst h <;> simp <;> omega
    · simp only [neighborOffsets, List.mem_cons, List.not_mem_nil, or_false] at hd
      rcases hd with h | h | h | h | h | h | h | h <;> subst h <;> simp <;> omega
  simp only [neighborOffsets, List.mem_cons, forall_eq_or_imp, List.not_mem_nil,
    forall_eq, and_true] at hp
  obtain ⟨h1, h2, h3, h4, h5, h6, h7, h8⟩ := hp
  simp only [neighbors, neighborOffsets, List.foldl_cons, List.foldl_nil,
    h1, h2, h3, h4, h5, h6, h7, h8.1, Option.some_bind, Option.map_some',
    List.map_cons, List.map_nil, List.sum_cons, List.sum_nil]
  congr 1
  ring

/-- The value `next_step` stores for one cell, as a function of the source
board only: the survive branch writes 1, the non-survive branch decays the
freshly zero-initialized new cell to `max (0-1) 0 = 0`, the birth branch
writes `adding_lifetime`, the default branch writes 0.  That the double
loop realizes exactly this function is proved below. -/
def cellNext (game : Board) (rules : Rules) (x y : Int) : Option Int :=
  (neighbors game x y).bind fun n =>
  (game.get_cell_at_position x y).bind fun cur =>
  if 0 < cur then
    (tableAt rules.survive n).map fun s => if s then 1 else 0
  else
    (tableAt rules.birth n).map fun bo => if bo then rules.adding_lifetime else 0

/-- Loop invariant for `next_step`'s double loop: after `k` cells (row-major)
have been processed, the new board has the source dimensions, full length,
the processed cells hold their `cellNext` value and the rest still hold 0. -/
def StepInv (game : Board) (rules : Rules) (k : Nat) (b : Board) : Prop :=
  b.cx = game.cx ∧ b.cy = game.cy ∧
  b.states.length = (game.cx * game.cy).toNat ∧
  (∀ i : Nat, i < k → i < b.states.length →
      b.states[i]? =
        cellNext game rules (↑(i % game.cx.toNat) : Int) (↑(i / game.cx.toNat) : Int)) ∧
  (∀ i : Nat, k ≤ i → i < b.states.length → b.states[i]? = some 0)

theorem flat_lt_len {cx cy : Int} (hcx : 0 < cx) (hcy : 0 < cy) {x y : Nat}
    (hx : x < cx.toNat) (hy : y < cy.toNat) :
    y * cx.toNat + x < (cx * cy).toNat := by
  obtain ⟨a, rfl⟩ : ∃ a : Nat, cx = (a : Int) := ⟨cx.toNat, (Int.toNat_of_nonneg hcx.le).symm⟩
  obtain ⟨c, rfl⟩ : ∃ c : Nat, cy = (c : Int) := ⟨cy.toNat, (Int.toNat_of_nonneg hcy.le).symm⟩
  simp only [Int.toNat_natCast] at hx hy ⊢
  rw [show ((a : Int) * (c : Int)) = ((a * c : Nat) : Int) by push_cast; ring,
    Int.toNat_natCast]
  calc y * a + x < y * a + a := by omega
    _ = (y + 1) * a := by ring
    _ ≤ c * a := Nat.mul_le_mul_right a hy
    _ = a * c := Nat.mul_comm c a

theorem step_cell_eq (game : Board) (rules : Rules) (b : Board)
    (hcx : 0 < game.cx) (hcy : 0 < game.cy) {x y : Nat}
    (hx : x < game.cx.toNat) (hy : y < game.cy.toNat)
    (hinv : StepInv game rules (y * game.cx.toNat + x) b) :
    step_cell game rules b (↑x : Int) (↑y : Int) =
      (cellNext game rules (↑x : Int) (↑y : Int)).map
        fun v => { b with states := b.states.set (y * game.cx.toNat + x) v } := by
  obtain ⟨hbx, hby, hblen, _hdone, htodo⟩ := hinv
  have hk : y * game.cx.toNat + x < b.states.length := by
    rw [hblen]; exact flat_lt_len hcx hcy hx hy
  have hidx : (↑y : Int) * b.cx + (↑x : Int) = (↑(y * game.cx.toNat + x) : Int) := by
    rw [hbx]
    obtain ⟨a, ha⟩ : ∃ a : Nat, game.cx = (a : Int) :=
      ⟨game.cx.toNat, (Int.toNat_of_nonneg hcx.le).symm⟩
    rw [ha]; simp only [Int.toNat_natCast, Int.ofNat_eq_natCast]; push_cast; ring
  have hidx0 : (0 : Int) ≤ (↑y : Int) * b.cx + (↑x : Int) := by
    rw [hidx]; exact Int.natCast_nonneg _
  have hidxt : ((↑y : Int) * b.cx + (↑x : Int)).toNat = y * game.cx.toNat + x := by
    rw [hidx]; exact Int.toNat_natCast _
  have hset : ∀ v : Int, b.set_cell_at_position (↑x : Int) (↑y : Int) v =
      some { b with states := b.states.set (y * game.cx.toNat + x) v } := by
    intro v
    simp only [Board.set_cell_at_position, hidxt, if_pos (And.intro hidx0 hk)]
  have hlower : b.lower_cell_lifetime (↑x : Int) (↑y : Int) 1 =
      some { b with states := b.states.set (y * game.cx.toNat + x) 0 } := by
    have hzero : b.states[(y * game.cx.toNat + x)]? = some 0 :=
      htodo _ (Nat.le_refl _) hk
    simp only [Board.lower_cell_lifetime, hidxt, if_pos hidx0, hzero]
    norm_num
  rcases hn : neighbors game (↑x : Int) (↑y : Int) with _ | n
  · simp [step_cell, cellNext, hn]
  rcases hc : game.get_cell_at_position (↑x : Int) (↑y : Int) with _ | cur
  · simp [step_cell, cellNext, hn, hc]
  by_cases hpos : 0 < cur
  · rcases hs : tableAt rules.survive n with _ | s
    · simp [step_cell, cellNext, hn, hc, hpos, hs]
    rcases s with _ | _
    · simp [step_cell, cellNext, hn, hc, hpos, hs, hlower]
    · simp [step_cell, cellNext, hn, hc, hpos, hs, hset]
  · rcases hbo : tableAt rules.birth n with _ | bo
    · simp [step_cell, cellNext, hn, hc, hpos, hbo]
    rcases bo with _ | _
    · simp [step_cell, cellNext, hn, hc, hpos, hbo, hset]
    · simp [step_cell, cellNext, hn, hc, hpos, hbo, hset]

theorem StepInv_set (game : Board) (rules : Rules) {k : Nat} {b : Board}
    (hinv : StepInv game rules k b) {x y : Nat}
    (hx : x < game.cx.toNat) (hy : y < game.cy.toNat)
    (hk : k = y * game.cx.toNat + x) {v : Int}
    (hv : cellNext game rules (↑x : Int) (↑y : Int) = some v) :
    StepInv game rules (k + 1) { b with states := b.states.set k v } := by
  obtain ⟨hbx, hby, hblen, hdone, htodo⟩ := hinv
  have hklen : k < b.states.length := by
    rw [hblen, hk]
    exact flat_lt_len (by omega) (by omega) hx hy
  refine ⟨hbx, hby, by simpa using hblen, ?_, ?_⟩
  · intro i hi hil
    simp only [List.length_set] at hil
    rcases Nat.lt_or_ge i k with hik | hik
    · rw [List.getElem?_set_ne (by omega)]
      exact hdone i hik hil
    · have hik' : i = k := by omega
      subst hik'
      rw [List.getElem?_set_self hklen]
      have hmod : i % game.cx.toNat = x := by
        rw [hk, Nat.add_comm, Nat.add_mul_mod_self_right]
        exact Nat.mod_eq_of_lt hx
      have hdiv : i / game.cx.toNat = y := by
        rw [hk, Nat.add_comm, Nat.add_mul_div_right _ _ (by omega : 0 < game.cx.toNat),
          Nat.div_eq_of_lt hx]
        omega
      rw [hmod, hdiv, hv]
  · intro i hi hil
    simp only [List.length_set] at hil
    rw [List.getElem?_set_ne (by omega)]
    exact htodo i (by omega) hil

theorem foldRow_spec (game : Board) (rules : Rules) (hcx : 0 < game.cx) (hcy : 0 < game.cy)
    (y : Nat) (hy : y < game.cy.toNat) :
    ∀ (m : Nat), m ≤ game.cx.toNat → ∀ b0 : Board, StepInv game rules (y * game.cx.toNat) b0 →
      (∀ b', (List.range m).foldl
          (fun accX xn => accX.bind fun b => step_cell game rules b (↑xn : Int) (↑y : Int))
          (some b0) = some b' →
        StepInv game rules (y * game.cx.toNat + m) b') ∧
      ((∀ x : Nat, x < m → (cellNext game rules (↑x : Int) (↑y : Int)).isSome) →
        ((List.range m).foldl
          (fun accX xn => accX.bind fun b => step_cell game rules b (↑xn : Int) (↑y : Int))
          (some b0)).isSome) := by
  intro m
  induction m with
  | zero =>
    intro _ b0 hinv
    refine ⟨?_, ?_⟩
    · intro b' hb'
      simp only [List.range_zero, List.foldl_nil, Option.some.injEq] at hb'
      subst hb'
      simpa using hinv
    · intro _
      simp [List.range_zero]
  | succ m ih =>
    intro hm b0 hinv
    have hm' : m ≤ game.cx.toNat := by omega
    obtain ⟨ih1, ih2⟩ := ih hm' b0 hinv
    rcases hprev : (List.range m).foldl
        (fun accX xn => accX.bind fun b => step_cell game rules b (↑xn : Int) (↑y : Int))
        (some b0) with _ | bm
    · refine ⟨?_, ?_⟩
      · intro b' hb'
        rw [List.range_succ, List.foldl_append, hprev] at hb'
        simp at hb'
      · intro hall
        have := ih2 (fun x hx => hall x (by omega))
        rw [hprev] at this
        simp at this
    · have hinvm : StepInv game rules (y * game.cx.toNat + m) bm := ih1 bm hprev
      have hsc := step_cell_eq game rules bm hcx hcy (by omega : m < game.cx.toNat) hy hinvm
      refine ⟨?_, ?_⟩
      · intro b' hb'
        rw [List.range_succ, List.foldl_append, hprev] at hb'
        simp only [List.foldl_cons, List.foldl_nil, Option.some_bind] at hb'
        rw [hsc] at hb'
        rcases hcn : cellNext game rules (↑m : Int) (↑y : Int) with _ | v
        · rw [hcn] at hb'; simp at hb'
        · rw [hcn] at hb'
          simp only [Option.map_some', Option.some.injEq] at hb'
          subst hb'
          have := StepInv_set game rules hinvm (by omega : m < game.cx.toNat) hy rfl hcn
          simpa [Nat.add_assoc] using this
      · intro hall
        rw [List.range_succ, List.foldl_append, hprev]
        simp only [List.foldl_cons, List.foldl_nil, Option.some_bind]
        rw [hsc]
        have hsome := hall m (by omega)
        rcases hcn : cellNext game rules (↑m : Int) (↑y : Int) with _ | v
        · rw [hcn] at hsome; simp at hsome
        · simp

theorem foldAll_spec (game : Board) (rules : Rules) (hcx : 0 < game.cx) (hcy : 0 < game.cy) :
    ∀ (r : Nat), r ≤ game.cy.toNat →
      (∀ ng, (List.range r).foldl
          (fun accY yn =>
            (List.range game.cx.toNat).foldl
              (fun accX xn => accX.bind fun b => step_cell game rules b (↑xn : Int) (↑yn : Int))
              accY)
          (some (Board.new game.cx game.cy)) = some ng →
        StepInv game rules (r * game.cx.toNat) ng) ∧
      ((∀ x y : Nat, x < game.cx.toNat → y < r → (cellNext game rules (↑x : Int) (↑y : Int)).isSome) →
        ((List.range r).foldl
          (fun accY yn =>
            (List.range game.cx.toNat).foldl
              (fun accX xn => accX.bind fun b => step_cell game rules b (↑xn : Int) (↑yn : Int))
              accY)
          (some (Board.new game.cx game.cy))).isSome) := by
  have hinv0 : StepInv game rules 0 (Board.new game.cx game.cy) := by
    refine ⟨rfl, rfl, by simp [Board.new], ?_, ?_⟩
    · intro i hi _; omega
    · intro i _ hil
      simp only [Board.new, List.length_replicate] at hil
      simp [Board.new, List.getElem?_replicate, hil]
  intro r
  induction r with
  | zero =>
    intro _
    refine ⟨?_, ?_⟩
    · intro ng hng
      simp only [List.range_zero, List.foldl_nil, Option.some.injEq] at hng
      subst hng
      simpa using hinv0
    · intro _
      simp [List.range_zero]
  | succ r ih =>
    intro hr
    have hr' : r ≤ game.cy.toNat := by omega
    obtain ⟨ih1, ih2⟩ := ih hr'
    have hrow := foldRow_spec game rules hcx hcy r (by omega : r < game.cy.toNat)
      game.cx.toNat (Nat.le_refl _)
    rcases hprev : (List.range r).foldl
        (fun accY yn =>
          (List.range game.cx.toNat).foldl
            (fun accX xn => accX.bind fun b => step_cell game rules b (↑xn : Int) (↑yn : Int))
            accY)
        (some (Board.new game.cx game.cy)) with _ | br
    · refine ⟨?_, ?_⟩
      · intro ng hng
        rw [List.range_succ, List.foldl_append, hprev] at hng
        exfalso
        revert hng
        generalize (List.range game.cx.toNat) = l
        induction l with
        | nil => simp
        | cons a l ihl => simpa using ihl
      · intro hall
        have := ih2 (fun x y hx hyr => hall x y hx (by omega))
        rw [hprev] at this
        simp at this
    · obtain ⟨row1, row2⟩ := hrow br (by
        have := ih1 br hprev
        simpa using this)
      refine ⟨?_, ?_⟩
      · intro ng hng
        rw [List.range_succ, List.foldl_append, hprev] at hng
        have := row1 ng hng
        have harith : r * game.cx.toNat + game.cx.toNat = (r + 1) * game.cx.toNat := by ring
        rwa [harith] at this
      · intro hall
        rw [List.range_succ, List.foldl_append, hprev]
        exact row2 (fun x hx => hall x r hx (by omega))

theorem next_step_some_spec (game : Board) (rules : Rules) (g' : Board)
    (hcx : 0 < game.cx) (hcy : 0 < game.cy)
    (h : next_step game rules = some g') :
    g'.cx = game.cx ∧ g'.cy = game.cy ∧
    g'.states.length = (game.cx * game.cy).toNat ∧
    ∀ x y : Nat, x < game.cx.toNat → y < game.cy.toNat →
      g'.states[y * game.cx.toNat + x]? = cellNext game rules (↑x : Int) (↑y : Int) := by
  unfold next_step at h
  rcases hfold : (List.range game.cy.toNat).foldl
      (fun accY yn =>
        (List.range game.cx.toNat).foldl
          (fun accX xn => accX.bind fun b => step_cell game rules b (↑xn : Int) (↑yn : Int))
          accY)
      (some (Board.new game.cx game.cy)) with _ | ng
  · rw [hfold] at h; simp at h
  · rw [hfold] at h
    simp only [Option.map_some', Option.some.injEq] at h
    subst h
    have hinv := (foldAll_spec game rules hcx hcy game.cy.toNat (Nat.le_refl _)).1 ng hfold
    obtain ⟨hbx, hby, hblen, hdone, _⟩ := hinv
    refine ⟨rfl, rfl, hblen, ?_⟩
    intro x y hx hy
    have hik : y * game.cx.toNat + x < game.cy.toNat * game.cx.toNat := by
      calc y * game.cx.toNat + x < (y + 1) * game.cx.toNat := by
            rw [Nat.succ_mul]; omega
        _ ≤ game.cy.toNat * game.cx.toNat := Nat.mul_le_mul_right _ (by omega)
    have hil : y * game.cx.toNat + x < ng.states.length := by
      rw [hblen]; exact flat_lt_len hcx hcy hx hy
    have := hdone (y * game.cx.toNat + x) hik hil
    have hmod : (y * game.cx.toNat + x) % game.cx.toNat = x := by
      rw [Nat.add_comm, Nat.add_mul_mod_self_right]
      exact Nat.mod_eq_of_lt hx
    have hdiv : (y * game.cx.toNat + x) / game.cx.toNat = y := by
      rw [Nat.add_comm, Nat.add_mul_div_right _ _ (by omega : 0 < game.cx.toNat),
        Nat.div_eq_of_lt hx]
      omega
    rwa [hmod, hdiv] at this

theorem next_step_isSome (game : Board) (rules : Rules)
    (hcx : 0 < game.cx) (hcy : 0 < game.cy)
    (h : ∀ x y : Nat, x < game.cx.toNat → y < game.cy.toNat →
      (cellNext game rules (↑x : Int) (↑y : Int)).isSome) :
    (next_step game rules).isSome := by
  unfold next_step
  have := (foldAll_spec game rules hcx hcy game.cy.toNat (Nat.le_refl _)).2 h
  rcases hfold : (List.range game.cy.toNat).foldl
      (fun accY yn =>
        (List.range game.cx.toNat).foldl
          (fun accX xn => accX.bind fun b => step_cell game rules b (↑xn : Int) (↑yn : Int))
          accY)
      (some (Board.new game.cx game.cy)) with _ | ng
  · rw [hfold] at this; simp at this
  · rw [hfold]; simp

theorem next_step_cell (game : Board) (rules : Rules) (g' : Board)
    (hcx : 0 < game.cx) (hcy : 0 < game.cy)
    (h : next_step game rules = some g') (x y : Int)
    (hx0 : 0 ≤ x) (hx1 : x < game.cx) (hy0 : 0 ≤ y) (hy1 : y < game.cy) :
    g'.get_cell_at_position x y = cellNext game rules x y := by
  obtain ⟨hbx, hby, hblen, hcells⟩ := next_step_some_spec game rules g' hcx hcy h
  have hget := get_in_range g' (by omega) x y hx0 (by omega) hy0 (by omega)
  obtain ⟨a, ha⟩ : ∃ a : Nat, x = (a : Int) := ⟨x.toNat, (Int.toNat_of_nonneg hx0).symm⟩
  obtain ⟨c, hc⟩ : ∃ c : Nat, y = (c : Int) := ⟨y.toNat, (Int.toNat_of_nonneg hy0).symm⟩
  subst ha hc
  have hxa : a < game.cx.toNat := by omega
  have hyc : c < game.cy.toNat := by omega
  have hidx : ((c : Int) * g'.cx + (a : Int)).toNat = c * game.cx.toNat + a := by
    rw [hbx]
    obtain ⟨w, hw⟩ : ∃ w : Nat, game.cx = (w : Int) :=
      ⟨game.cx.toNat, (Int.toNat_of_nonneg hcx.le).symm⟩
    rw [hw]
    simp only [Int.toNat_natCast]
    rw [show ((c : Int) * (w : Int) + (a : Int)) = ((c * w + a : Nat) : Int) by push_cast; ring,
      Int.toNat_natCast]
  rw [hget, hidx]
  exact hcells a c hxa hyc

theorem specGet_eq_zero_or_mem (b : Board) (x y : Int) :
    specGet b x y = 0 ∨ specGet b x y ∈ b.states := by
  unfold specGet
  rcases hg : b.states[((y % b.cy) * b.cx + (x % b.cx)).toNat]? with _ | v
  · simp
  · right
    simpa using List.getElem?_mem hg

theorem neighbors_bounds (b : Board) (hcx : 0 < b.cx) (hcy : 0 < b.cy)
    (hlen : b.states.length = (b.cx * b.cy).toNat)
    (hval : ∀ v ∈ b.states, v = 0 ∨ v = 1)
    (x y : Int) (hx0 : 0 ≤ x) (hx1 : x < b.cx) (hy0 : 0 ≤ y) (hy1 : y < b.cy) :
    ∃ n : Int, neighbors b x y = some n ∧ 0 ≤ n ∧ n ≤ 8 := by
  have hb : ∀ dx dy : Int, 0 ≤ specGet b (x + dx) (y + dy) ∧ specGet b (x + dx) (y + dy) ≤ 1 := by
    intro dx dy
    rcases specGet_eq_zero_or_mem b (x + dx) (y + dy) with h | h
    · omega
    · rcases hval _ h with h' | h' <;> omega
  refine ⟨_, neighbors_eq_sum b hcx hcy hlen x y hx0 hx1 hy0 hy1, ?_⟩
  simp only [neighborOffsets, List.map_cons, List.map_nil, List.sum_cons, List.sum_nil]
  obtain ⟨a1, b1⟩ := hb (-1) (-1)
  obtain ⟨a2, b2⟩ := hb (-1) 0
  obtain ⟨a3, b3⟩ := hb (-1) 1
  obtain ⟨a4, b4⟩ := hb 0 (-1)
  obtain ⟨a5, b5⟩ := hb 0 1
  obtain ⟨a6, b6⟩ := hb 1 (-1)
  obtain ⟨a7, b7⟩ := hb 1 0
  obtain ⟨a8, b8⟩ := hb 1 1
  constructor <;> omega

theorem neighbors_all_dead (b : Board) (hcx : 0 < b.cx) (hcy : 0 < b.cy)
    (hlen : b.states.length = (b.cx * b.cy).toNat)
    (hval : ∀ v ∈ b.states, v = 0)
    (x y : Int) (hx0 : 0 ≤ x) (hx1 : x < b.cx) (hy0 : 0 ≤ y) (hy1 : y < b.cy) :
    neighbors b x y = some 0 := by
  have hz : ∀ dx dy : Int, specGet b (x + dx) (y + dy) = 0 := by
    intro dx dy
    rcases specGet_eq_zero_or_mem b (x + dx) (y + dy) with h | h
    · exact h
    · exact hval _ h
  rw [neighbors_eq_sum b hcx hcy hlen x y hx0 hx1 hy0 hy1]
  simp only [neighborOffsets, List.map_cons, List.map_nil, List.sum_cons, List.sum_nil,
    hz (-1) (-1), hz (-1) 0, hz (-1) 1, hz 0 (-1), hz 0 1, hz 1 (-1), hz 1 0, hz 1 1]
  norm_num

/-- The fields of `struct SimulationConfig` that the simulation core reads
(colors and the `f32` wait time are opaque to the core and omitted). -/
structure SimulationConfig where
  board_size : Int × Int
  hovered : Bool
  auto_run : Bool
  should_simulate_next_frame : Bool
  drawing : Bool
  erasing : Bool
  draw_borders : Bool
  error : Bool
deriving DecidableEq, Repr

/-- Per-frame inputs the excluded collaborators deliver to the main loop:
whether the left mouse button is down, the grid cell under the mouse
(the `screen_size / grid_size` scaling is the UI's concern), and whether
`handler.is_finished()` observed the previous background step as done. -/
structure FrameInput where
  mouse_down : Bool
  mouse_cell : Int × Int
  handler_finished : Bool
deriving DecidableEq, Repr

/-- The error-handling part of the egui closure (`main.rs` lines 113 and
149-152): `error` is cleared at the top of the frame and set exactly when
`drawing && erasing`. -/
def ui_error_check (cfg : SimulationConfig) : SimulationConfig :=
  let c := { cfg with error := false }
  if c.drawing && c.erasing then { c with error := true } else c

/-- One iteration of the `loop` in `main` (the board-mutating decisions,
lines 149-220): run the UI error check; on error, skip straight to the next
frame (`continue`) touching nothing; otherwise resize the board if the
configured size changed, paint or erase under the mouse, and decide whether
to spawn a background step (only when `auto_run` or a manual step was
requested, and `handler.is_finished()`).  Returns the updated config, the
updated board, and whether a step thread was spawned; `none` models a panic
in a cell write. -/
def main_frame (cfg0 : SimulationConfig) (board : Board) (inp : FrameInput) :
    Option (SimulationConfig × Board × Bool) :=
  let cfg := ui_error_check cfg0
  if cfg.error then some (cfg, board, false)
  else
    let board1 :=
      if board.cx ≠ cfg.board_size.1 ∨ board.cy ≠ cfg.board_size.2 then
        Board.new cfg.board_size.1 cfg.board_size.2
      else board
    (if inp.mouse_down && !cfg.hovered then
        if cfg.drawing then board1.set_cell_at_position inp.mouse_cell.1 inp.mouse_cell.2 1
        else if cfg.erasing then board1.set_cell_at_position inp.mouse_cell.1 inp.mouse_cell.2 0
        else some board1
      else some board1).bind fun board2 =>
    if cfg.auto_run || cfg.should_simulate_next_frame then
      if inp.handler_finished then
        some ({ cfg with should_simulate_next_frame := false }, board2, true)
      else
        some ({ cfg with should_simulate_next_frame := false }, board2, false)
    else some (cfg, board2, false)

/-- State of the background stepping machinery (`main.rs` lines 106 and
206-219): `live` counts spawned step threads that have not finished, and
`lastFinished` tells whether the thread currently held in `handler` has
finished.  `handler` is only ever reassigned after `is_finished()` returned
true, so earlier threads are finished and `live` counts at most the current
handler's thread. -/
structure StepHandler where
  live : Nat
  lastFinished : Bool
deriving DecidableEq, Repr

/-- One frame of the step-scheduling logic: the environment may report the
current handler thread as finished (`finishEvt`), then, if `auto_run` or a
manual step request holds (`trigger`) and `handler.is_finished()`, one new
step thread is spawned and becomes the tracked handler. -/
def handler_tick (s : StepHandler) (finishEvt trigger : Bool) : StepHandler :=
  let s1 := if finishEvt && !s.lastFinished then ⟨s.live - 1, true⟩ else s
  if trigger && s1.lastFinished then ⟨s1.live + 1, false⟩ else s1

/-- Run the scheduling logic over a trace of frames, starting from program
start: no step thread live, the dummy `thread::spawn(|| {})` handler not yet
observed finished. -/
def run_handler (trace : List (Bool × Bool)) : StepHandler :=
  trace.foldl (fun s e => handler_tick s e.1 e.2) ⟨0, false⟩

def HandlerInv (s : StepHandler) : Prop :=
  s.live ≤ 1 ∧ (s.lastFinished → s.live = 0)

theorem handler_tick_inv (s : StepHandler) (f t : Bool) (h : HandlerInv s) :
    HandlerInv (handler_tick s f t) := by
  obtain ⟨h1, h2⟩ := h
  unfold handler_tick HandlerInv
  rcases s with ⟨live, lf⟩
  rcases f <;> rcases t <;> rcases lf <;> simp_all

theorem run_handler_inv (trace : List (Bool × Bool)) : HandlerInv (run_handler trace) := by
  have h : ∀ s : StepHandler, HandlerInv s →
      HandlerInv (trace.foldl (fun s e => handler_tick s e.1 e.2) s) := by
    induction trace with
    | nil => intro s hs; simpa using hs
    | cons e tl ih =>
      intro s hs
      simp only [List.foldl_cons]
      exact ih _ (handler_tick_inv s e.1 e.2 hs)
  exact h ⟨0, false⟩ ⟨by simp, by simp⟩

/-- Rule set with 9-entry all-false tables (no birth, no survival). -/
def exRulesOff : Rules := ⟨List.replicate 9 false, List.replicate 9 false, 1⟩

/-- The `birth`/`survive`/`adding_lifetime` values hard-coded in `main`
(Conway's B3/S23 with lifetime increment 1). -/
def mainRules : Rules :=
  ⟨[false, false, false, true, false, false, false, false, false],
   [false, false, true, true, false, false, false, false, false], 1⟩

/-- 3x3 board whose center cell carries lifetime value 3. -/
def exBoard1 : Board := ⟨3, 3, [0, 0, 0, 0, 3, 0, 0, 0, 0]⟩

/-- 5x2 board with distinct values at cells (2,1) and (2,0). -/
def exBoard2 : Board := ⟨5, 2, [0, 0, 1, 0, 0, 0, 0, 2, 0, 0]⟩

/-- 5x5 board with the single cell (2,2) set to value 3. -/
def exBoard3 : Board := ⟨5, 5, (List.replicate 25 0).set 12 3⟩

/-- 3x3 board whose center cell carries value 9. -/
def exBoard4 : Board := ⟨3, 3, [0, 0, 0, 0, 9, 0, 0, 0, 0]⟩

/-- Empty 5x5 board. -/
def exBoard5 : Board := Board.new 5 5

/-- 1x1 board with its single cell alive. -/
def exBoard6 : Board := ⟨1, 1, [1]⟩

/-- 5x5 board with the horizontal blinker seed (1,1),(2,1),(3,1) from
`main`'s initial board setup. -/
def exBlinker : Board :=
  ⟨5, 5, [0, 0, 0, 0, 0, 0, 1, 1, 1, 0, 0, 0, 0, 0, 0, 0, 0, 0, 0, 0, 0, 0, 0, 0, 0]⟩

/-- The board `exBlinker` steps to under `mainRules` (vertical blinker). -/
def exBlinkerNext : Board :=
  ⟨5, 5, [0, 0, 1, 0, 0, 0, 0, 1, 0, 0, 0, 0, 1, 0, 0, 0, 0, 0, 0, 0, 0, 0, 0, 0, 0]⟩

/-- Empty 3x3 board. -/
def exDead : Board := Board.new 3 3

/-- C1, counterexample: on a 3x3 board whose center cell holds lifetime 3,
with `survive` all false, the stepped center cell holds 0 — not
`max (3-1) 0 = 2` as the claim ("current state minus 1, floored at 0")
predicts. -/
theorem C1_counterexample :
    exBoard1.get_cell_at_position 1 1 = some 3 ∧
    neighbors exBoard1 1 1 = some 0 ∧
    tableAt exRulesOff.survive 0 = some false ∧
    ((next_step exBoard1 exRulesOff).bind fun g => g.get_cell_at_position 1 1) = some 0 ∧
    ((next_step exBoard1 exRulesOff).bind fun g => g.get_cell_at_position 1 1) ≠
      some (max (3 - 1) 0) := by decide

/-- C1 (amended): in the lifetime variant of the step function, an alive
cell (state > 0) whose neighbor count `n` has `survive[n]` false gets state
exactly 0 in the resulting grid, regardless of its current state: the decay
is applied to the zero-initialized *new* grid cell (`max (0 - 1) 0 = 0`),
not to the current state. -/
theorem C1_alive_no_survive_is_zero (game : Board) (rules : Rules) (g' : Board)
    (hcx : 0 < game.cx) (hcy : 0 < game.cy)
    (h : next_step game rules = some g') (x y : Int)
    (hx0 : 0 ≤ x) (hx1 : x < game.cx) (hy0 : 0 ≤ y) (hy1 : y < game.cy)
    (cur n : Int)
    (hcur : game.get_cell_at_position x y = some cur) (hpos : 0 < cur)
    (hn : neighbors game x y = some n)
    (hs : tableAt rules.survive n = some false) :
    g'.get_cell_at_position x y = some 0 := by
  rw [next_step_cell game rules g' hcx hcy h x y hx0 hx1 hy0 hy1]
  simp [cellNext, hn, hcur, hpos, hs]

/-- C1, witness for the amended theorem at the concrete counterexample
input. -/
theorem C1_witness :
    Board.get_cell_at_position ⟨3, 3, [0, 0, 0, 0, 0, 0, 0, 0, 0]⟩ 1 1 = some 0 :=
  C1_alive_no_survive_is_zero exBoard1 exRulesOff ⟨3, 3, [0, 0, 0, 0, 0, 0, 0, 0, 0]⟩
    (by decide) (by decide) (by decide) 1 1 (by decide) (by decide) (by decide) (by decide)
    3 0 (by decide) (by decide) (by decide) (by decide)

/-- C2, counterexample: on the 5x2 board `exBoard2`, for the in-range
coordinate pair (2,1) and k = -2, `get(2 + (-2)*5, 1) = get(-8, 1)` returns
the value of a *different* cell (`some 1`, the cell at flat index 2) while
`get(2, 1)` returns `some 2`: the wrap `(x + cx) % cx` with Rust's truncated
`%` does not handle offsets below `-cx`. -/
theorem C2_counterexample :
    exBoard2.cx = 5 ∧ 0 < exBoard2.cx ∧ 0 < exBoard2.cy ∧
    exBoard2.get_cell_at_position 2 1 = some 2 ∧
    exBoard2.get_cell_at_position (2 + (-2) * 5) 1 = some 1 ∧
    exBoard2.get_cell_at_position (2 + (-2) * 5) 1 ≠ exBoard2.get_cell_at_position 2 1 := by
  decide

/-- C2 (amended): for every grid with positive width, every in-range column
`0 ≤ x < cx`, every row `y`, and every integer `k ≥ -1`,
`get(x + k*cx, y)` equals `get(x, y)`; offsets `k ≤ -2` are outside the
range the wrapping arithmetic handles. -/
theorem C2_toroidal_wrap (b : Board) (hcx : 0 < b.cx) (x y k : Int)
    (hx0 : 0 ≤ x) (hx1 : x < b.cx) (hk : -1 ≤ k) :
    b.get_cell_at_position (x + k * b.cx) y = b.get_cell_at_position x y := by
  have hnn : 0 ≤ (k + 1) * b.cx := mul_nonneg (by omega) (by omega)
  have h1 : Int.tmod (x + k * b.cx + b.cx) b.cx = Int.tmod (x + b.cx) b.cx := by
    rw [Int.tmod_eq_emod (by nlinarith) (by omega), Int.tmod_eq_emod (by omega) (by omega),
      show x + k * b.cx + b.cx = (x + b.cx) + b.cx * k by ring, Int.add_mul_emod_self_left]
  simp only [Board.get_cell_at_position, h1]

/-- C2, witness for the amended theorem at k = -1 on the concrete board. -/
theorem C2_witness :
    exBoard2.get_cell_at_position (2 + (-1) * 5) 1 = exBoard2.get_cell_at_position 2 1 :=
  C2_toroidal_wrap exBoard2 (by decide) 2 1 (-1) (by decide) (by decide) (by decide)

/-- C3: the neighbor count of an in-range cell is the raw sum of the stored
values of its 8 Moore-adjacent cells under toroidal wrap (cells bounded by
15 so that every `i8` partial sum in the Rust accumulation stays in range),
and concretely: on a 5x5 grid with the single cell (2,2) set to 3, every
one of the 8 adjacent cells gets neighbor count exactly 3 — the stored
value 3 is contributed as 3, not clamped to 1. -/
theorem C3_neighbor_count_raw_sum :
    (∀ b : Board, 0 < b.cx → 0 < b.cy → b.states.length = (b.cx * b.cy).toNat →
      (∀ v ∈ b.states, 0 ≤ v ∧ v ≤ 15) →
      ∀ x y : Int, 0 ≤ x → x < b.cx → 0 ≤ y → y < b.cy →
        neighbors b x y =
          some ((neighborOffsets.map fun d => specGet b (x + d.1) (y + d.2)).sum)) ∧
    (exBoard3.get_cell_at_position 2 2 = some 3 ∧
     neighbors exBoard3 1 1 = some 3 ∧ neighbors exBoard3 2 1 = some 3 ∧
     neighbors exBoard3 3 1 = some 3 ∧ neighbors exBoard3 1 2 = some 3 ∧
     neighbors exBoard3 3 2 = some 3 ∧ neighbors exBoard3 1 3 = some 3 ∧
     neighbors exBoard3 2 3 = some 3 ∧ neighbors exBoard3 3 3 = some 3) := by
  constructor
  · intro b hcx hcy hlen _ x y hx0 hx1 hy0 hy1
    exact neighbors_eq_sum b hcx hcy hlen x y hx0 hx1 hy0 hy1
  · decide

/-- C3, witness: the universal part applied at the concrete single-cell-3
board and the coordinate (1,1). -/
theorem C3_witness :
    neighbors exBoard3 1 1 =
      some ((neighborOffsets.map fun d => specGet exBoard3 (1 + d.1) (1 + d.2)).sum) :=
  C3_neighbor_count_raw_sum.1 exBoard3 (by decide) (by decide) (by decide) (by decide)
    1 1 (by decide) (by decide) (by decide) (by decide)

/-- C4, counterexample: on a 3x3 grid whose center cell stores 9, the
neighbor count of cell (0,0) computed during a step is 9, which is not in
[0,8], and stepping with 9-entry rule tables panics (indexing the table out
of bounds): `next_step` is `none`. -/
theorem C4_counterexample :
    0 < exBoard4.cx ∧ 0 < exBoard4.cy ∧
    exBoard4.states.length = (exBoard4.cx * exBoard4.cy).toNat ∧
    exRulesOff.birth.length = 9 ∧ exRulesOff.survive.length = 9 ∧
    neighbors exBoard4 0 0 = some 9 ∧ ¬ ((9 : Int) ≤ 8) ∧
    next_step exBoard4 exRulesOff = none := by decide

/-- C4 (amended): on every grid whose cells all hold 0 or 1 (the only
values the program itself ever writes with `adding_lifetime = 1`), the
neighbor count of every in-range cell lies in [0,8] — including degenerate
1x1 and 2x2 toroidal grids, where a cell is its own neighbor via wrap — so
indexing a 9-entry birth or survive table with it never goes out of
bounds. -/
theorem C4_neighbor_count_bounds (b : Board) (hcx : 0 < b.cx) (hcy : 0 < b.cy)
    (hlen : b.states.length = (b.cx * b.cy).toNat)
    (hval : ∀ v ∈ b.states, v = 0 ∨ v = 1)
    (x y : Int) (hx0 : 0 ≤ x) (hx1 : x < b.cx) (hy0 : 0 ≤ y) (hy1 : y < b.cy) :
    ∃ n : Int, neighbors b x y = some n ∧ 0 ≤ n ∧ n ≤ 8 ∧
      ∀ l : List Bool, l.length = 9 → (tableAt l n).isSome := by
  obtain ⟨n, hn, h0, h8⟩ := neighbors_bounds b hcx hcy hlen hval x y hx0 hx1 hy0 hy1
  refine ⟨n, hn, h0, h8, ?_⟩
  intro l hl
  have hlt : n.toNat < l.length := by omega
  simp only [tableAt, if_pos h0, List.getElem?_eq_getElem hlt, Option.isSome_some]

/-- C4, witness: the amended theorem at the degenerate 1x1 all-alive grid,
where the neighbor count is 8 (the cell is its own neighbor 8 times over). -/
theorem C4_witness :
    ∃ n : Int, neighbors exBoard6 0 0 = some n ∧ 0 ≤ n ∧ n ≤ 8 ∧
      ∀ l : List Bool, l.length = 9 → (tableAt l n).isSome :=
  C4_neighbor_count_bounds exBoard6 (by decide) (by decide) (by decide) (by decide)
    0 0 (by decide) (by decide) (by decide) (by decide)

theorem toNat_mul_pos {a b : Int} (ha : 0 < a) (hb : 0 < b) :
    (a * b).toNat = a.toNat * b.toNat := by
  obtain ⟨m, rfl⟩ : ∃ m : Nat, a = (m : Int) := ⟨a.toNat, (Int.toNat_of_nonneg ha.le).symm⟩
  obtain ⟨n, rfl⟩ : ∃ n : Nat, b = (n : Int) := ⟨b.toNat, (Int.toNat_of_nonneg hb.le).symm⟩
  rw [← Nat.cast_mul, Int.toNat_natCast, Int.toNat_natCast, Int.toNat_natCast]

theorem get_all_dead (game : Board) (hcx : 0 < game.cx) (hcy : 0 < game.cy)
    (hlen : game.states.length = (game.cx * game.cy).toNat)
    (hdead : ∀ v ∈ game.states, v = 0)
    (x y : Int) (hx0 : 0 ≤ x) (hx1 : x < game.cx) (hy0 : 0 ≤ y) (hy1 : y < game.cy) :
    game.get_cell_at_position x y = some 0 := by
  rw [get_eq_specGet game hcx hcy hlen x y (by omega) (by omega)]
  rcases specGet_eq_zero_or_mem game x y with h | h
  · rw [h]
  · rw [hdead _ h]

/-- C5: per-cell rules of the step function — an alive source cell (state
> 0) whose neighbor count has `survive` true gets state 1; a dead source
cell (state = 0) whose count has `birth` true gets state `adding_lifetime`
(the ruleset's lifetime increment); a dead cell whose count has `birth`
false gets 0 — and consequently a step on an all-dead grid whose `birth[0]`
is false succeeds and yields an all-dead grid. -/
theorem C5_step_rule_outcomes :
    (∀ (game : Board) (rules : Rules) (g' : Board), 0 < game.cx → 0 < game.cy →
      next_step game rules = some g' →
      ∀ x y cur n : Int, 0 ≤ x → x < game.cx → 0 ≤ y → y < game.cy →
        game.get_cell_at_position x y = some cur → neighbors game x y = some n →
        ((0 < cur → tableAt rules.survive n = some true →
            g'.get_cell_at_position x y = some 1) ∧
         (cur = 0 → tableAt rules.birth n = some true →
            g'.get_cell_at_position x y = some rules.adding_lifetime) ∧
         (cur = 0 → tableAt rules.birth n = some false →
            g'.get_cell_at_position x y = some 0))) ∧
    (∀ (game : Board) (rules : Rules), 0 < game.cx → 0 < game.cy →
      game.states.length = (game.cx * game.cy).toNat →
      (∀ v ∈ game.states, v = 0) →
      tableAt rules.birth 0 = some false →
      ∃ g', next_step game rules = some g' ∧ ∀ v ∈ g'.states, v = 0) := by
  constructor
  · intro game rules g' hcx hcy h x y cur n hx0 hx1 hy0 hy1 hcur hn
    rw [next_step_cell game rules g' hcx hcy h x y hx0 hx1 hy0 hy1]
    refine ⟨fun hpos hs => ?_, fun hz hb => ?_, fun hz hb => ?_⟩
    · simp [cellNext, hn, hcur, hpos, hs]
    · subst hz; simp [cellNext, hn, hcur, hb]
    · subst hz; simp [cellNext, hn, hcur, hb]
  · intro game rules hcx hcy hlen hdead hb0
    have hcn : ∀ x y : Int, 0 ≤ x → x < game.cx → 0 ≤ y → y < game.cy →
        cellNext game rules x y = some 0 := by
      intro x y hx0 hx1 hy0 hy1
      have hn := neighbors_all_dead game hcx hcy hlen hdead x y hx0 hx1 hy0 hy1
      have hg := get_all_dead game hcx hcy hlen hdead x y hx0 hx1 hy0 hy1
      simp [cellNext, hn, hg, hb0]
    have hsome := next_step_isSome game rules hcx hcy (by
      intro x y hx hy
      rw [hcn (↑x : Int) (↑y : Int) (by omega) (by omega) (by omega) (by omega)]
      simp)
    rcases hstep : next_step game rules with _ | g'
    · rw [hstep] at hsome; simp at hsome
    refine ⟨g', rfl, ?_⟩
    obtain ⟨_, _, hglen, hcells⟩ := next_step_some_spec game rules g' hcx hcy hstep
    intro v hv
    obtain ⟨i, hi⟩ := List.mem_iff_getElem?.mp hv
    have hilen : i < g'.states.length := by
      by_contra hcon
      rw [List.getElem?_eq_none (by omega)] at hi
      exact Option.noConfusion hi
    have hglen' : g'.states.length = game.cx.toNat * game.cy.toNat := by
      rw [hglen, toNat_mul_pos hcx hcy]
    obtain ⟨xr, hxrdef⟩ : ∃ t, i % game.cx.toNat = t := ⟨_, rfl⟩
    obtain ⟨yr, hyrdef⟩ : ∃ t, i / game.cx.toNat = t := ⟨_, rfl⟩
    have hxr : xr < game.cx.toNat := by
      rw [← hxrdef]; exact Nat.mod_lt _ (by omega)
    have hyr : yr < game.cy.toNat := by
      rw [← hyrdef, Nat.div_lt_iff_lt_mul (by omega : 0 < game.cx.toNat)]
      calc i < g'.states.length := hilen
        _ = game.cy.toNat * game.cx.toNat := by rw [hglen']; ring
    have hdecomp : i = yr * game.cx.toNat + xr := by
      rw [← hxrdef, ← hyrdef, Nat.mul_comm, Nat.add_comm]
      exact (Nat.mod_add_div i game.cx.toNat).symm
    have hx' : (0 : Int) ≤ (↑xr : Int) := Int.natCast_nonneg _
    have hy' : (0 : Int) ≤ (↑yr : Int) := Int.natCast_nonneg _
    have hx'' : (↑xr : Int) < game.cx := by
      rw [← Int.toNat_of_nonneg hcx.le]
      exact_mod_cast hxr
    have hy'' : (↑yr : Int) < game.cy := by
      rw [← Int.toNat_of_nonneg hcy.le]
      exact_mod_cast hyr
    have hcell := hcells xr yr hxr hyr
    rw [← hdecomp, hi, hcn (↑xr : Int) (↑yr : Int) hx' hx'' hy' hy''] at hcell
    injection hcell

/-- C5, witness: the alive-and-survive branch at the blinker board from
`main`'s initial setup, cell (2,1) with neighbor count 2 under B3/S23. -/
theorem C5_witness :
    exBlinkerNext.get_cell_at_position 2 1 = some 1 :=
  ((C5_step_rule_outcomes.1 exBlinker mainRules exBlinkerNext (by decide) (by decide)
    (by decide) 2 1 1 2 (by decide) (by decide) (by decide) (by decide)
    (by decide) (by decide)).1) (by decide) (by decide)

/-- C6: `Board::new(width, height)` with positive dimensions yields a board
with all cells dead and a `states` sequence of length exactly `cx*cy`, and
`next_step` produces a board with the same `cx` and `cy` as its source and
`states` length still exactly `cx*cy`. -/
theorem C6_shape_invariant :
    (∀ w h : Int, 0 < w → 0 < h →
      (Board.new w h).cx = w ∧ (Board.new w h).cy = h ∧
      (((Board.new w h).states.length : Int) = w * h) ∧
      ∀ v ∈ (Board.new w h).states, v = 0) ∧
    (∀ (game : Board) (rules : Rules) (g' : Board), 0 < game.cx → 0 < game.cy →
      next_step game rules = some g' →
      g'.cx = game.cx ∧ g'.cy = game.cy ∧
      ((g'.states.length : Int) = game.cx * game.cy)) := by
  constructor
  · intro w h hw hh
    refine ⟨rfl, rfl, ?_, ?_⟩
    · have : 0 ≤ w * h := mul_nonneg hw.le hh.le
      simp only [Board.new, List.length_replicate]
      omega
    · intro v hv
      exact List.eq_of_mem_replicate hv
  · intro game rules g' hcx hcy h
    obtain ⟨h1, h2, h3, _⟩ := next_step_some_spec game rules g' hcx hcy h
    refine ⟨h1, h2, ?_⟩
    rw [h3]
    have : 0 ≤ game.cx * game.cy := mul_nonneg hcx.le hcy.le
    omega

/-- C6, witness: both parts at concrete inputs — a fresh 5x5 board, and the
concrete blinker step. -/
theorem C6_witness :
    ((Board.new 5 5).cx = 5 ∧ (Board.new 5 5).cy = 5 ∧
      (((Board.new 5 5).states.length : Int) = 5 * 5) ∧
      ∀ v ∈ (Board.new 5 5).states, v = 0) ∧
    (exBlinkerNext.cx = exBlinker.cx ∧ exBlinkerNext.cy = exBlinker.cy ∧
      ((exBlinkerNext.states.length : Int) = exBlinker.cx * exBlinker.cy)) :=
  ⟨C6_shape_invariant.1 5 5 (by decide) (by decide),
   C6_shape_invariant.2 exBlinker mainRules exBlinkerNext (by decide) (by decide) (by decide)⟩

theorem cellNext_value_cases {game : Board} {rules : Rules} {x y : Int} {v : Int}
    (h : cellNext game rules x y = some v) :
    v = 0 ∨ v = 1 ∨ v = rules.adding_lifetime := by
  unfold cellNext at h
  rcases hn : neighbors game x y with _ | n
  · rw [hn] at h; simp at h
  rw [hn] at h
  rcases hc : game.get_cell_at_position x y with _ | cur
  · rw [hc] at h; simp at h
  rw [hc] at h
  simp only [Option.some_bind] at h
  by_cases hpos : 0 < cur
  · rw [if_pos hpos] at h
    rcases hs : tableAt rules.survive n with _ | s
    · rw [hs] at h; simp at h
    rw [hs] at h
    simp only [Option.map_some', Option.some.injEq] at h
    rcases s with _ | _
    · simp only [Bool.false_eq_true, if_false] at h
      exact Or.inl h.symm
    · simp only [if_true] at h
      exact Or.inr (Or.inl h.symm)
  · rw [if_neg hpos] at h
    rcases hb : tableAt rules.birth n with _ | bo
    · rw [hb] at h; simp at h
    rw [hb] at h
    simp only [Option.map_some', Option.some.injEq] at h
    rcases bo with _ | _
    · simp only [Bool.false_eq_true, if_false] at h
      exact Or.inl h.symm
    · simp only [if_true] at h
      exact Or.inr (Or.inr h.symm)

/-- C7: every cell value in the board produced by a successful `next_step`
is exactly 0, 1, or the ruleset's `adding_lifetime`; in particular no
partially decayed lifetime value strictly between 1 and the original state
ever appears (the decay path always writes 0). -/
theorem C7_output_values (game : Board) (rules : Rules) (g' : Board)
    (hcx : 0 < game.cx) (hcy : 0 < game.cy)
    (h : next_step game rules = some g') (v : Int) (hv : v ∈ g'.states) :
    v = 0 ∨ v = 1 ∨ v = rules.adding_lifetime := by
  obtain ⟨_, _, hglen, hcells⟩ := next_step_some_spec game rules g' hcx hcy h
  obtain ⟨i, hi⟩ := List.mem_iff_getElem?.mp hv
  have hilen : i < g'.states.length := by
    by_contra hcon
    rw [List.getElem?_eq_none (by omega)] at hi
    exact Option.noConfusion hi
  have hglen' : g'.states.length = game.cx.toNat * game.cy.toNat := by
    rw [hglen, toNat_mul_pos hcx hcy]
  obtain ⟨xr, hxrdef⟩ : ∃ t, i % game.cx.toNat = t := ⟨_, rfl⟩
  obtain ⟨yr, hyrdef⟩ : ∃ t, i / game.cx.toNat = t := ⟨_, rfl⟩
  have hxr : xr < game.cx.toNat := by
    rw [← hxrdef]; exact Nat.mod_lt _ (by omega)
  have hyr : yr < game.cy.toNat := by
    rw [← hyrdef, Nat.div_lt_iff_lt_mul (by omega : 0 < game.cx.toNat)]
    calc i < g'.states.length := hilen
      _ = game.cy.toNat * game.cx.toNat := by rw [hglen']; ring
  have hdecomp : i = yr * game.cx.toNat + xr := by
    rw [← hxrdef, ← hyrdef, Nat.mul_comm, Nat.add_comm]
    exact (Nat.mod_add_div i game.cx.toNat).symm
  have hcell := hcells xr yr hxr hyr
  rw [← hdecomp, hi] at hcell
  exact cellNext_value_cases hcell.symm

/-- C7, witness: the value 1 of a cell of the concrete blinker step
result. -/
theorem C7_witness :
    (1 : Int) = 0 ∨ (1 : Int) = 1 ∨ (1 : Int) = mainRules.adding_lifetime :=
  C7_output_values exBlinker mainRules exBlinkerNext (by decide) (by decide) (by decide)
    1 (by decide)

/-- C8, counterexample: on an empty 5x5 board, `set(7, 0, 1)` — column 7 is
out of bounds for width 5 — is not fatal: it completes normally and
silently writes the cell at flat index 7, i.e. cell (2,1). -/
theorem C8_counterexample :
    exBoard5.cx = 5 ∧ (exBoard5.cx ≤ 7) ∧
    (exBoard5.set_cell_at_position 7 0 1).isSome = true ∧
    ((exBoard5.set_cell_at_position 7 0 1).bind fun b =>
      b.get_cell_at_position 2 1) = some 1 := by decide

/-- C8 (amended): an out-of-bounds `set(x, y, state)` is a fatal index
panic only when the flat index `y*cx + x` falls outside `[0, cx*cy)`;
whenever the flat index is in range — which out-of-range coordinates such
as `x ≥ cx` can produce — the call completes as a normal, silently
recovered write to the cell at that flat index. -/
theorem C8_set_unwrapped (b : Board) (hcx : 0 < b.cx) (hcy : 0 < b.cy)
    (hlen : b.states.length = (b.cx * b.cy).toNat) (x y v : Int) :
    (0 ≤ y * b.cx + x ∧ (y * b.cx + x).toNat < b.states.length →
      (b.set_cell_at_position x y v).isSome = true ∧
      ((b.set_cell_at_position x y v).bind fun b2 =>
        b2.get_cell_at_position ((y * b.cx + x) % b.cx) ((y * b.cx + x) / b.cx)) = some v) ∧
    (¬ (0 ≤ y * b.cx + x ∧ (y * b.cx + x).toNat < b.states.length) →
      b.set_cell_at_position x y v = none) := by
  constructor
  · intro hin
    obtain ⟨hidx0, hidx1⟩ := hin
    have hset : b.set_cell_at_position x y v =
        some { b with states := b.states.set (y * b.cx + x).toNat v } := by
      simp only [Board.set_cell_at_position, if_pos (And.intro hidx0 hidx1)]
    refine ⟨by rw [hset]; rfl, ?_⟩
    rw [hset]
    simp only [Option.some_bind]
    have hidxlt : y * b.cx + x < b.cx * b.cy := by omega
    have hq0 : 0 ≤ (y * b.cx + x) / b.cx := Int.ediv_nonneg hidx0 hcx.le
    have hq1 : (y * b.cx + x) / b.cx < b.cy :=
      Int.ediv_lt_of_lt_mul hcx (by
        calc y * b.cx + x < b.cx * b.cy := hidxlt
          _ = b.cy * b.cx := by ring)
    have hr0 : 0 ≤ (y * b.cx + x) % b.cx := Int.emod_nonneg _ (by omega)
    have hr1 : (y * b.cx + x) % b.cx < b.cx := Int.emod_lt_of_pos _ hcx
    rw [get_in_range _ (by simpa using hcx) _ _ hr0 (by simpa using hr1) hq0
      (by simpa using hq1)]
    have hrec : (y * b.cx + x) / b.cx * b.cx + (y * b.cx + x) % b.cx = y * b.cx + x := by
      rw [Int.mul_comm]
      exact Int.ediv_add_emod _ _
    simp only [hrec]
    exact List.getElem?_set_self (by simpa using hidx1)
  · intro hout
    simp only [Board.set_cell_at_position, if_neg hout]

/-- C8, witness for the amended theorem at the concrete out-of-bounds
write `set(7, 0, 1)` on the empty 5x5 board. -/
theorem C8_witness :
    (exBoard5.set_cell_at_position 7 0 1).isSome = true ∧
    ((exBoard5.set_cell_at_position 7 0 1).bind fun b2 =>
      b2.get_cell_at_position ((0 * exBoard5.cx + 7) % exBoard5.cx)
        ((0 * exBoard5.cx + 7) / exBoard5.cx)) = some 1 :=
  (C8_set_unwrapped exBoard5 (by decide) (by decide) (by decide) 7 0 1).1 (by decide)

/-- C9: whenever the drawing and erasing flags are both true in a frame's
configuration, the frame performs no cell mutation at all — no paint, no
erase, no resize, and no step spawn, for any mouse input and any attempted
paint coordinate: the board comes back unchanged and no step thread is
spawned.  The condition is non-fatal (the frame completes, returning
`some`), with only the `error` flag raised for the UI to display. -/
theorem C9_draw_erase_conflict (cfg : SimulationConfig) (board : Board) (inp : FrameInput)
    (hd : cfg.drawing = true) (he : cfg.erasing = true) :
    main_frame cfg board inp = some (ui_error_check cfg, board, false) := by
  have herr : (ui_error_check cfg).error = true := by
    simp [ui_error_check, hd, he]
  simp only [main_frame, herr, if_true]

/-- C9, witness at a concrete conflicting configuration, with the mouse
down over an in-range cell. -/
theorem C9_witness :
    main_frame
      ⟨(5, 5), false, false, false, true, true, true, false⟩
      exBoard5 ⟨true, (2, 2), true⟩ =
    some (ui_error_check ⟨(5, 5), false, false, false, true, true, true, false⟩,
      exBoard5, false) :=
  C9_draw_erase_conflict ⟨(5, 5), false, false, false, true, true, true, false⟩
    exBoard5 ⟨true, (2, 2), true⟩ (by decide) (by decide)

/-- C10: at most one background step is ever in flight — running the
spawn-guarded scheduling logic of the main loop over any trace of frames
(each frame: did the in-flight step finish, and was a step triggered via
`auto_run` or a manual request) never has more than one spawned step thread
alive, because a new step is spawned only after `handler.is_finished()`
observed the previous one complete. -/
theorem C10_at_most_one_step (trace : List (Bool × Bool)) :
    (run_handler trace).live ≤ 1 :=
  (run_handler_inv trace).1
